import Mathlib

/-!
Verification development for the VideosProcessor pipeline (`src/main.py`).

The Python source is shallowly embedded below:

* pure string helpers (`get_safe_filename`, `normalize_leading_date_in_title`,
  the inline base-name derivation of `run`, lines 430-435) become Lean
  functions over `List Char` / `String`;
* the Python regexes are embedded as explicit backtracking matchers,
  faithful to `re.match` semantics (prefix match, greedy quantifiers with
  backtracking, `.` not matching a newline, `(\s.*|$)` alternation order);
  the Python classes `\d` / `\s` are modelled over their ASCII ranges;
* `is_file_locked` is embedded against a small model of the outcomes an
  `open(..., "rb")` call can have (missing file, exclusively locked,
  readable, permission denied), every failure raising an `OSError`;
* the effectful tail of `run` (steps 4b, 5a, 5b, 6; lines 445-517) becomes a
  state-passing function over a record of "does this artifact path exist"
  booleans, recording every `mkdir` / `shutil.copy2` / encoder invocation as
  an `Effect`, with the uncaught exceptions Python would raise (missing
  `ffmpeg` executable at `subprocess.run`, missing copy source at
  `shutil.copy2`) modelled as a `Crash` that aborts the remaining steps;
* the title gate and the two cancellation exits (lines 376-418) become
  `runFull`, parameterised over the dialog and file-picker outcomes.
-/

namespace VideosProcessor

/-! ### Character classes (ASCII fragments of Python's `\s`, `\d`, the date
separator class `[-\s\\/]`, and the invalid-filename set of
`get_safe_filename`, `src/main.py` line 51). -/

/-- Python `\s` (and `str.strip` / `str.isspace`), restricted to ASCII:
space, tab, newline, carriage return, vertical tab, form feed. -/
def isPySpace (c : Char) : Bool :=
  c == ' ' || c == '\t' || c == '\n' || c == '\r' || c == '\x0b' || c == '\x0c'

/-- The separator class `[-\s\\/]` of both date regexes
(`src/main.py` lines 61 and 431). -/
def isDateSep (c : Char) : Bool :=
  c == '-' || c == '/' || c == '\\' || isPySpace c

/-- The reserved characters `<>:"/\|?*` replaced by `get_safe_filename`
(`src/main.py` line 51). -/
def isInvalidChar (c : Char) : Bool :=
  c == '<' || c == '>' || c == ':' || c == '"' || c == '/' || c == '\\' ||
  c == '|' || c == '?' || c == '*'

/-! ### `get_safe_filename` (src/main.py lines 47-55)

```python
def get_safe_filename(text):
    if not text: return ""
    invalid_chars = '<>:"/\\|?*'
    sanitized = "".join((" " if ch in invalid_chars else ch) for ch in text)
    sanitized = re.sub(r"\s+", " ", sanitized).strip()
    return sanitized
```
-/

/-- The generator expression of line 52: each reserved character becomes a
single space. -/
def replaceInvalid (cs : List Char) : List Char :=
  cs.map fun c => if isInvalidChar c then ' ' else c

/-- `re.sub(r"\s+", " ", s)`: every maximal run of whitespace collapses to
one `' '`. -/
def collapseWs : List Char → List Char
  | [] => []
  | [c] => if isPySpace c then [' '] else [c]
  | a :: b :: t =>
    if isPySpace a && isPySpace b then collapseWs (b :: t)
    else (if isPySpace a then ' ' else a) :: collapseWs (b :: t)

/-- `str.strip()` on the character list (ASCII whitespace model). -/
def stripList (cs : List Char) : List Char :=
  ((cs.dropWhile isPySpace).reverse.dropWhile isPySpace).reverse

/-- `str.strip()`. -/
def pyStrip (s : String) : String :=
  ⟨stripList s.data⟩

/-- `get_safe_filename` (src/main.py lines 47-55). -/
def get_safe_filename (s : String) : String :=
  if s.data.isEmpty then ""
  else ⟨stripList (collapseWs (replaceInvalid s.data))⟩

/-! ### `normalize_leading_date_in_title` (src/main.py lines 58-67)

```python
def normalize_leading_date_in_title(text):
    if not text: return ""
    m = re.match(r"^\s*(\d{4})[-\s\\/]+(\d{1,2})[-\s\\/]+(\d{1,2})(\s.*|$)", text)
    if not m: return text
    y, mth, d, rest = m.groups()
    return f"{y}{mth.zfill(2)}{d.zfill(2)}{rest}"
```

The regex is embedded as an explicit matcher.  `re.match` anchors at the
start only (a prefix match); `\s*` and `[-\s\\/]+` are greedy but never need
to backtrack because the class that follows them (`\d`) is disjoint from
them; `(\d{1,2})` is greedy with real backtracking (two digits first, then
one); `(\s.*|$)` tries `\s.*` first, where `.` matches everything except
`'\n'`, and `$` succeeds only at the end of the remaining input (the
only-before-a-final-newline case of Python's `$` is subsumed by the `\s.*`
branch, which matches a lone `'\n'` first).  Characters after the captured
groups are discarded by the rebuild, exactly as in the Python source.
-/

/-- `(\d{4})`: consume exactly four digits, returning them and the rest. -/
def parseYear : List Char → Option (List Char × List Char)
  | a :: b :: c :: d :: t =>
    if a.isDigit && b.isDigit && c.isDigit && d.isDigit then some ([a, b, c, d], t) else none
  | _ => none

/-- `[-\s\\/]+`: at least one separator, consumed greedily. -/
def parseSepPlus : List Char → Option (List Char)
  | c :: t => if isDateSep c then some (t.dropWhile isDateSep) else none
  | [] => none

/-- `(\s.*|$)`: the captured trail group. -/
def matchRest : List Char → Option (List Char)
  | [] => some []
  | c :: t => if isPySpace c then some (c :: t.takeWhile (fun x => x != '\n')) else none

/-- `(\d{1,2})(\s.*|$)`: greedy day capture with backtracking. -/
def parseDay (cs : List Char) : Option (List Char × List Char) :=
  (match cs with
   | a :: b :: t =>
     if a.isDigit && b.isDigit then (matchRest t).map (fun r => ([a, b], r)) else none
   | _ => none)
  <|>
  (match cs with
   | a :: t => if a.isDigit then (matchRest t).map (fun r => ([a], r)) else none
   | _ => none)

/-- `(\d{1,2})[-\s\\/]+(\d{1,2})(\s.*|$)`: greedy month capture with
backtracking into the day part. -/
def parseMonthDay (cs : List Char) : Option (List Char × List Char × List Char) :=
  (match cs with
   | a :: b :: t =>
     if a.isDigit && b.isDigit then
       (parseSepPlus t).bind fun t₂ => (parseDay t₂).map fun p => ([a, b], p.1, p.2)
     else none
   | _ => none)
  <|>
  (match cs with
   | a :: t =>
     if a.isDigit then
       (parseSepPlus t).bind fun t₂ => (parseDay t₂).map fun p => ([a], p.1, p.2)
     else none
   | _ => none)

/-- The full match of `^\s*(\d{4})[-\s\\/]+(\d{1,2})[-\s\\/]+(\d{1,2})(\s.*|$)`,
returning the four captured groups. -/
def parseLeadingDate (s : String) : Option (List Char × List Char × List Char × List Char) :=
  let cs := s.data.dropWhile isPySpace
  (parseYear cs).bind fun y =>
  (parseSepPlus y.2).bind fun t₂ =>
  (parseMonthDay t₂).map fun p => (y.1, p.1, p.2.1, p.2.2)

/-- `str.zfill`: left-pad with `'0'` to the given width. -/
def zfill (w : Nat) (l : List Char) : List Char :=
  List.replicate (w - l.length) '0' ++ l

/-- `normalize_leading_date_in_title` (src/main.py lines 58-67). -/
def normalize_leading_date_in_title (s : String) : String :=
  if s.data.isEmpty then ""
  else
    match parseLeadingDate s with
    | none => s
    | some (y, m, d, r) => ⟨y ++ zfill 2 m ++ zfill 2 d ++ r⟩

/-! ### The base-name derivation inlined in `run` (src/main.py lines 430-435)

```python
safe_title = get_safe_filename(clean_title)
title_starts_with_date = bool(re.match(r"^\s*(\d{8}|\d{4}[-\s\\/]?\d{2}[-\s\\/]?\d{2})", clean_title))
if title_starts_with_date:
    base_name = safe_title
else:
    base_name = f"{datetime.now():%Y%m%d} {safe_title}"
```
-/

/-- `\d{8}` as a prefix match. -/
def matchEightDigits : List Char → Bool
  | a :: b :: c :: d :: e :: f :: g :: h :: _ =>
    a.isDigit && b.isDigit && c.isDigit && d.isDigit &&
    e.isDigit && f.isDigit && g.isDigit && h.isDigit
  | _ => false

/-- `[-\s\\/]?`: the candidate remainders, greedy branch first. -/
def sepOptBranches : List Char → List (List Char)
  | c :: t => if isDateSep c then [t, c :: t] else [c :: t]
  | [] => [[]]

/-- `\d{2}` as a prefix match, returning the remainder. -/
def matchTwoDigits : List Char → Option (List Char)
  | a :: b :: t => if a.isDigit && b.isDigit then some t else none
  | _ => none

/-- `\d{4}[-\s\\/]?\d{2}[-\s\\/]?\d{2}` as a prefix match. -/
def matchSeparatedDate (cs : List Char) : Bool :=
  match parseYear cs with
  | none => false
  | some y =>
    (sepOptBranches y.2).any fun t₂ =>
      match matchTwoDigits t₂ with
      | none => false
      | some t₃ => (sepOptBranches t₃).any fun t₄ => (matchTwoDigits t₄).isSome

/-- `bool(re.match(r"^\s*(\d{8}|\d{4}[-\s\\/]?\d{2}[-\s\\/]?\d{2})", title))`
(src/main.py line 431). -/
def title_starts_with_date (s : String) : Bool :=
  let cs := s.data.dropWhile isPySpace
  matchEightDigits cs || matchSeparatedDate cs

/-- A calendar date, standing in for `datetime.now()`. -/
structure Date where
  year : Nat
  month : Nat
  day : Nat
deriving DecidableEq

/-- `strftime("%Y%m%d")`-style zero-padded decimal rendering. -/
def padNat (w n : Nat) : List Char :=
  let ds := Nat.toDigits 10 n
  List.replicate (w - ds.length) '0' ++ ds

/-- `f"{now:%Y%m%d}"`. -/
def formatYYYYMMDD (d : Date) : String :=
  ⟨padNat 4 d.year ++ padNat 2 d.month ++ padNat 2 d.day⟩

/-- The spec's `deriveBaseName(title, today)`: the inline computation of
src/main.py lines 430-435. -/
def deriveBaseName (title : String) (today : Date) : String :=
  if title_starts_with_date title then get_safe_filename title
  else formatYYYYMMDD today ++ " " ++ get_safe_filename title

/-! ### `is_file_locked` (src/main.py lines 112-119)

```python
def is_file_locked(file_path):
    try:
        with open(file_path, "rb"):
            return False
    except OSError:
        return True
```

The outcomes the `open` call can have are modelled as `FileState`; every
non-readable state raises some subclass of `OSError` (`FileNotFoundError`
for a missing path, a sharing-violation `PermissionError`/`OSError` for an
exclusively held file, `PermissionError` for an ACL denial), and the
source's `except OSError` catches all of them.
-/

/-- What the operating system does when `is_file_locked` tries to open the
path for reading. -/
inductive FileState
  /-- The path does not exist: `open` raises `FileNotFoundError`. -/
  | absent
  /-- Another process holds the file exclusively: `open` raises an
  `OSError` (sharing violation). -/
  | lockedExclusive
  /-- The file can be opened for reading. -/
  | readable
  /-- Access is denied for an unrelated reason: `open` raises
  `PermissionError`. -/
  | permissionDenied
deriving DecidableEq

/-- The `OSError` subclasses relevant to the open attempt. -/
inductive OSErrorKind
  | fileNotFound
  | sharingViolation
  | permissionError
deriving DecidableEq

/-- The modelled `open(file_path, "rb")` attempt. -/
def openForRead : FileState → Except OSErrorKind Unit
  | .absent => .error .fileNotFound
  | .lockedExclusive => .error .sharingViolation
  | .readable => .ok ()
  | .permissionDenied => .error .permissionError

/-- `is_file_locked` (src/main.py lines 112-119): `False` when the open
succeeds, `True` on any `OSError`. -/
def is_file_locked (fs : FileState) : Bool :=
  match openForRead fs with
  | .ok _ => false
  | .error _ => true

/-! ### The effectful tail of `run` (src/main.py lines 445-517)

The filesystem is reduced to the artifact paths `run` reads or writes:
the selected source recording (`latest_video`, always present once the
lock wait of step 3 has finished), the two originals copies, the two
work-area encoder outputs, and the two flat destination copies.  Every
`mkdir`, `shutil.copy2` and `ffmpeg` launch is recorded (in program order)
as an `Effect`.  `subprocess.run(["ffmpeg", ...])` raises an uncaught
`FileNotFoundError` when the executable is missing, and
`shutil.copy2(src, dst)` raises an uncaught `FileNotFoundError` when `src`
does not exist; both are modelled as a `Crash` that stops all remaining
steps (Python would exit with a traceback and a non-zero status).  A
non-zero `ffmpeg` exit is *not* an exception (`check=False`); it is
modelled by the oracle booleans `audioOk` / `videoOk` deciding whether the
invocation leaves an output file behind.
-/

/-- The artifact paths of one run. -/
inductive PathId
  | src
  | workOrig
  | finalOrig
  | audioOut
  | videoOut
  | finalAudio
  | finalComp
deriving DecidableEq

/-- Which target paths currently exist (the source recording always does). -/
structure Files where
  workOrig : Bool
  finalOrig : Bool
  audioOut : Bool
  videoOut : Bool
  finalAudio : Bool
  finalComp : Bool
deriving DecidableEq

instance : Fintype Files :=
  Fintype.ofSurjective
    (fun x : Bool × Bool × Bool × Bool × Bool × Bool =>
      Files.mk x.1 x.2.1 x.2.2.1 x.2.2.2.1 x.2.2.2.2.1 x.2.2.2.2.2)
    (fun f => ⟨⟨f.workOrig, f.finalOrig, f.audioOut, f.videoOut, f.finalAudio, f.finalComp⟩, rfl⟩)

/-- Existence lookup. -/
def Files.get (f : Files) : PathId → Bool
  | .src => true
  | .workOrig => f.workOrig
  | .finalOrig => f.finalOrig
  | .audioOut => f.audioOut
  | .videoOut => f.videoOut
  | .finalAudio => f.finalAudio
  | .finalComp => f.finalComp

/-- An observable filesystem/process action of the pipeline tail. -/
inductive Effect
  /-- `daily_folder.mkdir(parents=True, exist_ok=True)` (line 447). -/
  | mkdirDaily
  /-- `shutil.copy2(source, target)` was invoked. -/
  | copy (source target : PathId)
  /-- `subprocess.run(["ffmpeg", *audio_args], check=False)` (line 471). -/
  | encodeAudio
  /-- `subprocess.run(["ffmpeg", *h265_args], check=False)` (line 484). -/
  | encodeVideo
deriving DecidableEq

/-- Does the effect launch the external encoder? -/
def Effect.isEncode : Effect → Bool
  | .encodeAudio => true
  | .encodeVideo => true
  | _ => false

/-- Is the effect a file copy? -/
def Effect.isCopy : Effect → Bool
  | .copy _ _ => true
  | _ => false

/-- The output path an encode or copy writes to, if any. -/
def Effect.target : Effect → Option PathId
  | .mkdirDaily => none
  | .copy _ t => some t
  | .encodeAudio => some .audioOut
  | .encodeVideo => some .videoOut

/-- An uncaught Python exception inside the pipeline tail. -/
inductive Crash
  /-- `FileNotFoundError` from `subprocess.run` at the audio encode:
  `ffmpeg` missing from the environment (line 471). -/
  | audioEncodeLaunch
  /-- `FileNotFoundError` from `subprocess.run` at the video encode
  (line 484). -/
  | videoEncodeLaunch
  /-- `FileNotFoundError` from `shutil.copy2` at the audio destination
  copy: the work-area audio output does not exist (line 499). -/
  | audioCopy
  /-- `FileNotFoundError` from `shutil.copy2` at the compressed-video
  destination copy (line 510). -/
  | videoCopy
deriving DecidableEq

/-- The outcome of the pipeline tail. -/
structure RunResult where
  files : Files
  effects : List Effect
  crashed : Option Crash
deriving DecidableEq

/-- Steps 4b, 5a, 5b and 6 of `run` (src/main.py lines 445-517), given the
debug flag, the merged skip flags, whether the `ffmpeg` executable is
present, whether each encoder invocation would leave its output file, and
which artifacts already exist. -/
def runPipeline (debug skipA skipV ffmpegPresent audioOk videoOk : Bool)
    (f : Files) : RunResult :=
  -- Step 4b (lines 445-458): mkdir, then the two guarded originals copies.
  let effs4 : List Effect :=
    if debug then []
    else
      [Effect.mkdirDaily]
        ++ (if f.workOrig then [] else [Effect.copy .src .workOrig])
        ++ (if f.finalOrig then [] else [Effect.copy .src .finalOrig])
  let f4 := if debug then f else { f with workOrig := true, finalOrig := true }
  -- Step 5a (lines 462-473): audio extraction.
  let audioAttempt := !skipA && !f4.audioOut
  let effs5a : List Effect := if audioAttempt then [Effect.encodeAudio] else []
  let crash5a := audioAttempt && !ffmpegPresent
  let f5a := if audioAttempt && ffmpegPresent && audioOk then { f4 with audioOut := true } else f4
  -- Step 5b (lines 476-486): video re-encode; reached only without a crash.
  let videoAttempt := !crash5a && !skipV && !f5a.videoOut
  let effs5b : List Effect := if videoAttempt then [Effect.encodeVideo] else []
  let crash5b := videoAttempt && !ffmpegPresent
  let f5b := if videoAttempt && ffmpegPresent && videoOk then { f5a with videoOut := true } else f5a
  -- Step 6b (lines 493-501): audio destination copy.
  let alive6 := !crash5a && !crash5b
  let audioCopyAttempt := alive6 && !debug && !skipA && !f5b.finalAudio
  let effs6b : List Effect := if audioCopyAttempt then [Effect.copy .audioOut .finalAudio] else []
  let crash6b := audioCopyAttempt && !f5b.audioOut
  let f6b := if audioCopyAttempt && f5b.audioOut then { f5b with finalAudio := true } else f5b
  -- Step 6c (lines 504-512): compressed-video destination copy.
  let alive6c := alive6 && !crash6b
  let videoCopyAttempt := alive6c && !debug && !skipV && !f6b.finalComp
  let effs6c : List Effect := if videoCopyAttempt then [Effect.copy .videoOut .finalComp] else []
  let crash6c := videoCopyAttempt && !f6b.videoOut
  let f6c := if videoCopyAttempt && f6b.videoOut then { f6b with finalComp := true } else f6b
  { files := f6c
    effects := effs4 ++ effs5a ++ effs5b ++ effs6b ++ effs6c
    crashed :=
      if crash5a then some .audioEncodeLaunch
      else if crash5b then some .videoEncodeLaunch
      else if crash6b then some .audioCopy
      else if crash6c then some .videoCopy
      else none }

/-! ### The title gate and the cancellation exits (src/main.py lines 376-418)

The dialog (`show_title_confirmation_dialog`) either produces no result
(window closed), an explicit cancel, or a submission; `run` treats the
first two identically (`if not dlg or not dlg.get("ok"): sys.exit(0)`,
lines 392-393).  On submission the title and artist are stripped (already
in `_DialogAPI.submit`, line 313, and again at lines 395-396), the skip
flags merged with the CLI flag (line 397), the title date-normalized
(line 400) and both values persisted to the title file (lines 402-404).
Cancelling the file picker (`selected_path is None`) also exits with
status 0 (lines 415-417).  An uncaught crash in the pipeline tail makes
the interpreter exit with status 1.
-/

/-- The outcome of the human-input provider. -/
inductive GateDlg
  /-- The dialog window was closed without a result (`dlg` is `None`). -/
  | noResult
  /-- The human pressed cancel (`ok` is false). -/
  | cancelled
  /-- The human accepted, possibly after editing. -/
  | submitted (title artist : String) (skipAudio skipVideo : Bool)

/-- The record the gate persists on acceptance (title after strip and
date-normalization, artist after strip; lines 395-404). -/
def gateRecord (title artist : String) : String × String :=
  (normalize_leading_date_in_title (pyStrip title), pyStrip artist)

/-- The title gate once the title file holds two non-blank lines: `none`
means the run exited at the dialog (lines 392-393). -/
def titleGate (dlg : GateDlg) : Option (String × String) :=
  match dlg with
  | .noResult => none
  | .cancelled => none
  | .submitted t a _ _ => some (gateRecord t a)

/-- The observable outcome of one whole invocation of `run`. -/
structure FullResult where
  exitCode : Nat
  titlePersisted : Option (String × String)
  effects : List Effect
  crashed : Option Crash
deriving DecidableEq

/-- `run` from the moment the title file is valid: dialog, file pick, then
the pipeline tail (src/main.py lines 386-517).  `pick` is `none` when the
file selector was cancelled. -/
def runFull (dlg : GateDlg) (pick : Option Unit)
    (debug cliSkipAudio ffmpegPresent audioOk videoOk : Bool) (f : Files) : FullResult :=
  match dlg with
  | .noResult => ⟨0, none, [], none⟩
  | .cancelled => ⟨0, none, [], none⟩
  | .submitted t a sA sV =>
    let record := gateRecord t a
    let doSkipA := sA || cliSkipAudio
    let doSkipV := sV
    match pick with
    | none => ⟨0, some record, [], none⟩
    | some _ =>
      let r := runPipeline debug doSkipA doSkipV ffmpegPresent audioOk videoOk f
      ⟨if r.crashed.isSome then 1 else 0, some record, r.effects, r.crashed⟩

/-- Shorthand for a work area in which every target artifact exists. -/
def allArtifacts : Files := ⟨true, true, true, true, true, true⟩

/-- Shorthand for a fresh work area. -/
def noArtifacts : Files := ⟨false, false, false, false, false, false⟩

/-! ### Auxiliary predicates used to state and prove properties -/

/-- Neither the first nor the last character is whitespace. -/
def noEdgeWs (cs : List Char) : Bool :=
  (match cs.head? with
   | some c => !isPySpace c
   | none => true) &&
  (match cs.getLast? with
   | some c => !isPySpace c
   | none => true)

/-- No two adjacent characters are both whitespace. -/
def WsSeparated (cs : List Char) : Prop :=
  List.Chain' (fun a b => ¬(isPySpace a = true ∧ isPySpace b = true)) cs

/-- The claim's "title beginning with a valid YYYY-MM-DD-like date token
(any of the accepted separators)": four digits, a separator from the
accepted class, two digits, a separator, two digits. -/
def startsWithSpecDateToken (t : String) : Prop :=
  ∃ (y₁ y₂ y₃ y₄ s₁ m₁ m₂ s₂ d₁ d₂ : Char) (r : List Char),
    t.data = [y₁, y₂, y₃, y₄, s₁, m₁, m₂, s₂, d₁, d₂] ++ r ∧
    y₁.isDigit = true ∧ y₂.isDigit = true ∧ y₃.isDigit = true ∧ y₄.isDigit = true ∧
    m₁.isDigit = true ∧ m₂.isDigit = true ∧ d₁.isDigit = true ∧ d₂.isDigit = true ∧
    isDateSep s₁ = true ∧ isDateSep s₂ = true

/-- The value the trail group `(\s.*|$)` captures on a successful match:
empty at end of input, otherwise the whitespace character and everything
up to (excluding) the next `'\n'`. -/
def restGroup : List Char → List Char
  | [] => []
  | c :: t => c :: t.takeWhile (fun x => x != '\n')

/-! ## Helper lemmas -/

theorem space_not_digit {c : Char} (h : isPySpace c = true) : c.isDigit = false := by
  simp only [isPySpace, Bool.or_eq_true, beq_iff_eq] at h
  rcases h with ((((rfl | rfl) | rfl) | rfl) | rfl) | rfl <;> decide

theorem sep_not_digit {c : Char} (h : isDateSep c = true) : c.isDigit = false := by
  simp only [isDateSep, Bool.or_eq_true, beq_iff_eq] at h
  rcases h with ((rfl | rfl) | rfl) | h
  · decide
  · decide
  · decide
  · exact space_not_digit h

theorem digit_not_space {c : Char} (h : c.isDigit = true) : isPySpace c = false := by
  cases hs : isPySpace c
  · rfl
  · rw [space_not_digit hs] at h; cases h

theorem digit_not_sep {c : Char} (h : c.isDigit = true) : isDateSep c = false := by
  cases hs : isDateSep c
  · rfl
  · rw [sep_not_digit hs] at h; cases h

/-! ### List helpers -/

theorem dropWhile_append_of_all {p : Char → Bool} :
    ∀ {l₁ : List Char} {l₂ : List Char}, (∀ c ∈ l₁, p c = true) →
      (l₁ ++ l₂).dropWhile p = l₂.dropWhile p := by
  intro l₁
  induction l₁ with
  | nil => intro l₂ _; rfl
  | cons a t ih =>
    intro l₂ h
    have ha : p a = true := h a (List.mem_cons_self a t)
    simp only [List.cons_append, List.dropWhile_cons_of_pos ha]
    exact ih fun c hc => h c (List.mem_cons_of_mem a hc)

theorem takeWhile_append_of_all {p : Char → Bool} :
    ∀ {l₁ : List Char} {l₂ : List Char}, (∀ c ∈ l₁, p c = true) →
      (l₁ ++ l₂).takeWhile p = l₁ ++ l₂.takeWhile p := by
  intro l₁
  induction l₁ with
  | nil => intro l₂ _; rfl
  | cons a t ih =>
    intro l₂ h
    have ha : p a = true := h a (List.mem_cons_self a t)
    simp only [List.cons_append, List.takeWhile_cons_of_pos ha, List.cons.injEq, true_and]
    exact ih fun c hc => h c (List.mem_cons_of_mem a hc)

theorem dropWhile_cons_neg {p : Char → Bool} {a : Char} {l : List Char}
    (h : p a = false) : (a :: l).dropWhile p = a :: l :=
  List.dropWhile_cons_of_neg (by simp [h])

theorem takeWhile_cons_neg {p : Char → Bool} {a : Char} {l : List Char}
    (h : p a = false) : (a :: l).takeWhile p = [] :=
  List.takeWhile_cons_of_neg (by simp [h])

theorem takeWhile_eq_self_of_all {p : Char → Bool} :
    ∀ {l : List Char}, (∀ c ∈ l, p c = true) → l.takeWhile p = l := by
  intro l
  induction l with
  | nil => intro _; rfl
  | cons a t ih =>
    intro h
    simp only [List.takeWhile_cons_of_pos (h a (List.mem_cons_self a t)), List.cons.injEq, true_and]
    exact ih fun c hc => h c (List.mem_cons_of_mem a hc)

/-! ### Lemmas about `get_safe_filename` -/

theorem collapseWs_singleton (c : Char) :
    collapseWs [c] = if isPySpace c then [' '] else [c] := rfl

theorem collapseWs_cons_cons_pos {a b : Char} {t : List Char}
    (h : (isPySpace a && isPySpace b) = true) :
    collapseWs (a :: b :: t) = collapseWs (b :: t) := by
  simp only [collapseWs, h, if_true]

theorem collapseWs_cons_cons_neg {a b : Char} {t : List Char}
    (h : (isPySpace a && isPySpace b) = false) :
    collapseWs (a :: b :: t) = (if isPySpace a then ' ' else a) :: collapseWs (b :: t) := by
  simp only [collapseWs, h, Bool.false_eq_true, if_false]

theorem mem_replaceInvalid {c : Char} {cs : List Char} (h : c ∈ replaceInvalid cs) :
    isInvalidChar c = false := by
  simp only [replaceInvalid, List.mem_map] at h
  obtain ⟨a, _, rfl⟩ := h
  by_cases ha : isInvalidChar a = true
  · rw [if_pos ha]; decide
  · rw [if_neg ha]; exact Bool.eq_false_iff.mpr ha

theorem replaceInvalid_eq_self {cs : List Char} (h : ∀ c ∈ cs, isInvalidChar c = false) :
    replaceInvalid cs = cs := by
  induction cs with
  | nil => rfl
  | cons a t ih =>
    have ha : ¬ isInvalidChar a = true := by
      rw [h a (List.mem_cons_self a t)]; exact Bool.false_ne_true
    simp only [replaceInvalid, List.map_cons, if_neg ha, List.cons.injEq, true_and]
    exact ih fun c hc => h c (List.mem_cons_of_mem a hc)

theorem mem_collapseWs {c : Char} :
    ∀ {cs : List Char}, c ∈ collapseWs cs → c = ' ' ∨ (c ∈ cs ∧ isPySpace c = false) := by
  intro cs
  induction cs with
  | nil => intro h; cases h
  | cons a t ih =>
    cases t with
    | nil =>
      intro h
      rw [collapseWs_singleton] at h
      by_cases ha : isPySpace a = true
      · rw [if_pos ha] at h
        rw [List.mem_singleton.mp h]
        exact Or.inl rfl
      · rw [if_neg ha] at h
        rw [List.mem_singleton.mp h]
        exact Or.inr ⟨List.mem_cons_self _ _, Bool.eq_false_iff.mpr ha⟩
    | cons b t₂ =>
      intro h
      cases hab : (isPySpace a && isPySpace b) with
      | true =>
        rw [collapseWs_cons_cons_pos hab] at h
        rcases ih h with h' | ⟨hm, hw⟩
        · exact Or.inl h'
        · exact Or.inr ⟨List.mem_cons_of_mem a hm, hw⟩
      | false =>
        rw [collapseWs_cons_cons_neg hab] at h
        rcases List.mem_cons.mp h with hc | h'
        · by_cases ha : isPySpace a = true
          · rw [if_pos ha] at hc
            exact Or.inl hc
          · rw [if_neg ha] at hc
            rw [hc]
            exact Or.inr ⟨List.mem_cons_self _ _, Bool.eq_false_iff.mpr ha⟩
        · rcases ih h' with h'' | ⟨hm, hw⟩
          · exact Or.inl h''
          · exact Or.inr ⟨List.mem_cons_of_mem a hm, hw⟩

theorem collapseWs_cons_head (b : Char) (t : List Char) :
    ∃ c r, collapseWs (b :: t) = c :: r ∧ isPySpace c = isPySpace b := by
  induction t generalizing b with
  | nil =>
    by_cases hb : isPySpace b = true
    · refine ⟨' ', [], ?_, ?_⟩
      · rw [collapseWs_singleton, if_pos hb]
      · rw [hb]; decide
    · refine ⟨b, [], ?_, rfl⟩
      rw [collapseWs_singleton, if_neg hb]
  | cons b₂ t₂ ih =>
    cases hbb : (isPySpace b && isPySpace b₂) with
    | true =>
      obtain ⟨c, r, hcr, hws⟩ := ih b₂
      refine ⟨c, r, ?_, ?_⟩
      · rw [collapseWs_cons_cons_pos hbb, hcr]
      · rw [hws, (Bool.and_eq_true_iff.mp hbb).2, (Bool.and_eq_true_iff.mp hbb).1]
    | false =>
      refine ⟨if isPySpace b then ' ' else b, collapseWs (b₂ :: t₂),
        collapseWs_cons_cons_neg hbb, ?_⟩
      by_cases hb : isPySpace b = true
      · rw [if_pos hb, hb]; decide
      · rw [if_neg hb]

theorem wsSeparated_collapseWs : ∀ cs : List Char, WsSeparated (collapseWs cs) := by
  intro cs
  induction cs with
  | nil => exact List.chain'_nil
  | cons a t ih =>
    cases t with
    | nil =>
      unfold WsSeparated
      rw [collapseWs_singleton]
      by_cases ha : isPySpace a = true
      · rw [if_pos ha]; exact List.chain'_singleton _
      · rw [if_neg ha]; exact List.chain'_singleton _
    | cons b t₂ =>
      cases hab : (isPySpace a && isPySpace b) with
      | true =>
        unfold WsSeparated
        rw [collapseWs_cons_cons_pos hab]
        exact ih
      | false =>
        unfold WsSeparated
        rw [collapseWs_cons_cons_neg hab]
        obtain ⟨c, r, hcr, hws⟩ := collapseWs_cons_head b t₂
        rw [hcr]
        refine List.chain'_cons.mpr ⟨?_, ?_⟩
        · rintro ⟨h1, h2⟩
          rw [hws] at h2
          have ha : isPySpace a = true := by
            by_cases ha' : isPySpace a = true
            · exact ha'
            · rw [if_neg ha'] at h1; exact absurd h1 ha'
          rw [ha, h2] at hab
          cases hab
        · have h' := ih
          unfold WsSeparated at h'
          rw [hcr] at h'
          exact h'

theorem collapseWs_eq_self :
    ∀ {cs : List Char}, WsSeparated cs → (∀ c ∈ cs, isPySpace c = true → c = ' ') →
      collapseWs cs = cs := by
  intro cs
  induction cs with
  | nil => intro _ _; rfl
  | cons a t ih =>
    cases t with
    | nil =>
      intro _ hall
      rw [collapseWs_singleton]
      by_cases ha : isPySpace a = true
      · rw [if_pos ha, hall a (List.mem_cons_self a []) ha]
      · rw [if_neg ha]
    | cons b t₂ =>
      intro hsep hall
      have hpair := (List.chain'_cons.mp hsep).1
      have hrest := (List.chain'_cons.mp hsep).2
      have hab : (isPySpace a && isPySpace b) = false := by
        cases h' : (isPySpace a && isPySpace b)
        · rfl
        · exact absurd ⟨(Bool.and_eq_true_iff.mp h').1, (Bool.and_eq_true_iff.mp h').2⟩ hpair
      rw [collapseWs_cons_cons_neg hab,
        ih hrest fun c hc => hall c (List.mem_cons_of_mem a hc)]
      by_cases ha : isPySpace a = true
      · rw [if_pos ha, hall a (List.mem_cons_self a _) ha]
      · rw [if_neg ha]

theorem mem_stripList {c : Char} {cs : List Char} (h : c ∈ stripList cs) : c ∈ cs := by
  simp only [stripList, List.mem_reverse] at h
  have h₂ := (List.dropWhile_suffix isPySpace).subset h
  rw [List.mem_reverse] at h₂
  exact (List.dropWhile_suffix isPySpace).subset h₂

theorem head?_dropWhile_false {p : Char → Bool} {cs : List Char} {c : Char}
    (h : (cs.dropWhile p).head? = some c) : p c = false := by
  have hne : cs.dropWhile p ≠ [] := by
    intro hnil; rw [hnil] at h; cases h
  rw [List.head?_eq_head hne] at h
  injection h with h'
  rw [← h']
  exact List.head_dropWhile_not p cs hne

theorem getLast?_dropWhile_of_ne_nil {p : Char → Bool} :
    ∀ {cs : List Char}, cs.dropWhile p ≠ [] → (cs.dropWhile p).getLast? = cs.getLast? := by
  intro cs
  induction cs with
  | nil => intro h; exact absurd rfl h
  | cons a t ih =>
    intro h
    by_cases ha : p a = true
    · rw [List.dropWhile_cons_of_pos ha] at h ⊢
      have ht : t ≠ [] := by
        intro hnil
        rw [hnil] at h
        exact h rfl
      rw [ih h]
      obtain ⟨b, t₂, rfl⟩ := List.exists_cons_of_ne_nil ht
      rw [List.getLast?_cons_cons]
    · rw [dropWhile_cons_neg (Bool.eq_false_iff.mpr ha)]

theorem noEdgeWs_stripList (cs : List Char) : noEdgeWs (stripList cs) = true := by
  unfold noEdgeWs stripList
  set u := cs.dropWhile isPySpace with hu
  set w := u.reverse.dropWhile isPySpace with hw
  apply Bool.and_eq_true_iff.mpr
  constructor
  · rw [List.head?_reverse]
    cases hlast : w.getLast? with
    | none => rfl
    | some c =>
      have hne : w ≠ [] := by
        intro hnil; rw [hnil] at hlast; cases hlast
      rw [hw, getLast?_dropWhile_of_ne_nil (hw ▸ hne), List.getLast?_reverse] at hlast
      cases hhead : u.head? with
      | none => rw [hhead] at hlast; cases hlast
      | some c' =>
        rw [hhead] at hlast
        cases hlast
        rw [hu] at hhead
        simp [head?_dropWhile_false hhead]
  · rw [List.getLast?_reverse]
    cases hhead : w.head? with
    | none => rfl
    | some c => simp [head?_dropWhile_false (hw ▸ hhead)]

theorem stripList_eq_self {cs : List Char} (h : noEdgeWs cs = true) : stripList cs = cs := by
  cases cs with
  | nil => rfl
  | cons a t =>
    have hedge := Bool.and_eq_true_iff.mp h
    have ha : isPySpace a = false := by
      have := hedge.1
      simp only [List.head?_cons] at this
      rwa [Bool.not_eq_true'] at this
    rcases List.eq_nil_or_concat (a :: t) with hnil | ⟨L, b, hconcat⟩
    · cases hnil
    · have hb : isPySpace b = false := by
        have := hedge.2
        rw [List.concat_eq_append] at hconcat
        rw [hconcat, List.getLast?_concat] at this
        rwa [Bool.not_eq_true'] at this
      rw [List.concat_eq_append] at hconcat
      unfold stripList
      rw [dropWhile_cons_neg ha, hconcat, List.reverse_append, List.reverse_singleton,
        List.singleton_append, dropWhile_cons_neg hb, List.reverse_cons, List.reverse_reverse]

theorem wsSeparated_stripList {cs : List Char} (h : WsSeparated cs) :
    WsSeparated (stripList cs) := by
  unfold stripList
  have h₁ : WsSeparated (cs.dropWhile isPySpace) :=
    List.Chain'.suffix h (List.dropWhile_suffix isPySpace)
  have h₂ : WsSeparated (cs.dropWhile isPySpace).reverse := by
    rw [WsSeparated, List.chain'_reverse]
    exact List.Chain'.imp (fun a b hab ⟨x, y⟩ => hab ⟨y, x⟩) h₁
  have h₃ : WsSeparated ((cs.dropWhile isPySpace).reverse.dropWhile isPySpace) :=
    List.Chain'.suffix h₂ (List.dropWhile_suffix isPySpace)
  rw [WsSeparated, List.chain'_reverse]
  exact List.Chain'.imp (fun a b hab ⟨x, y⟩ => hab ⟨y, x⟩) h₃

theorem stripList_idem (cs : List Char) : stripList (stripList cs) = stripList cs :=
  stripList_eq_self (noEdgeWs_stripList cs)

theorem pyStrip_idem (s : String) : pyStrip (pyStrip s) = pyStrip s := by
  show (⟨stripList (stripList s.data)⟩ : String) = ⟨stripList s.data⟩
  rw [stripList_idem]

/-! ### Lemmas about the base-name regex -/

theorem spec_token_matches {t : String} (h : startsWithSpecDateToken t) :
    title_starts_with_date t = true := by
  obtain ⟨y₁, y₂, y₃, y₄, s₁, m₁, m₂, s₂, d₁, d₂, r, hdata,
    hy₁, hy₂, hy₃, hy₄, hm₁, hm₂, hd₁, hd₂, hs₁, hs₂⟩ := h
  unfold title_starts_with_date
  rw [hdata]
  simp only [List.cons_append, List.nil_append]
  rw [dropWhile_cons_neg (digit_not_space hy₁)]
  apply Bool.or_eq_true_iff.mpr
  right
  simp [matchSeparatedDate, parseYear, sepOptBranches, matchTwoDigits,
    hy₁, hy₂, hy₃, hy₄, hm₁, hm₂, hd₁, hd₂, hs₁, hs₂]

/-! ### Forward computation of the date-normalization regex -/

theorem forall_mem_nil (p : Char → Bool) : ∀ x ∈ ([] : List Char), p x = true :=
  fun x hx => absurd hx (List.not_mem_nil x)

theorem forall_mem_singleton {p : Char → Bool} {a : Char} (h : p a = true) :
    ∀ x ∈ [a], p x = true := by
  intro x hx
  rw [List.mem_singleton.mp hx]
  exact h

theorem orElse_none_left {α : Type} (y : Option α) : (none <|> y) = y := rfl

theorem orElse_some_left {α : Type} (x : α) (y : Option α) : (some x <|> y) = some x := rfl

theorem parseSepPlus_append {q b : Char} {qs rest t : List Char}
    (hq : isDateSep q = true) (hqs : ∀ c ∈ qs, isDateSep c = true)
    (hrest : rest = b :: t) (hb : isDateSep b = false) :
    parseSepPlus (q :: qs ++ rest) = some rest := by
  show parseSepPlus (q :: (qs ++ rest)) = some rest
  simp only [parseSepPlus, hq]
  rw [if_true, dropWhile_append_of_all hqs, hrest, dropWhile_cons_neg hb]

theorem parseSepPlus_cons_none {a : Char} {t : List Char} (ha : isDateSep a = false) :
    parseSepPlus (a :: t) = none := by
  simp only [parseSepPlus, ha, Bool.false_eq_true]
  rw [if_false]

theorem matchRest_eq {r : List Char}
    (hr : r = [] ∨ ∃ c t, r = c :: t ∧ isPySpace c = true) :
    matchRest r = some (restGroup r) := by
  rcases hr with rfl | ⟨c, t, rfl, hc⟩
  · rfl
  · simp only [matchRest, restGroup, hc]
    rw [if_true]

theorem matchRest_cons_none {c : Char} {t : List Char} (hc : isPySpace c = false) :
    matchRest (c :: t) = none := by
  simp only [matchRest, hc, Bool.false_eq_true]
  rw [if_false]

theorem parseDay_eq {d r : List Char}
    (hd : (∃ a, d = [a] ∧ a.isDigit = true) ∨
          (∃ a b, d = [a, b] ∧ a.isDigit = true ∧ b.isDigit = true))
    (hr : r = [] ∨ ∃ c t, r = c :: t ∧ isPySpace c = true) :
    parseDay (d ++ r) = some (d, restGroup r) := by
  rcases hd with ⟨a, rfl, ha⟩ | ⟨a, b, rfl, ha, hb⟩
  · rcases hr with rfl | ⟨c, t, rfl, hc⟩
    · show parseDay [a] = some ([a], restGroup [])
      simp only [parseDay, ha, matchRest, restGroup]
      rw [orElse_none_left, if_true]
      rfl
    · show parseDay (a :: c :: t) = some ([a], restGroup (c :: t))
      have hcd : c.isDigit = false := space_not_digit hc
      simp only [parseDay, ha, hcd, Bool.and_false, Bool.false_eq_true]
      rw [if_false, orElse_none_left, if_true, matchRest_eq (Or.inr ⟨c, t, rfl, hc⟩)]
      rfl
  · show parseDay (a :: b :: r) = some ([a, b], restGroup r)
    simp only [parseDay, ha, hb, Bool.and_self]
    rw [if_true, matchRest_eq hr]
    rfl

theorem parseDay_none {d : List Char} {c : Char} {r : List Char}
    (hd : (∃ a, d = [a] ∧ a.isDigit = true ∧ c.isDigit = false) ∨
          (∃ a b, d = [a, b] ∧ a.isDigit = true ∧ b.isDigit = true))
    (hc : isPySpace c = false) :
    parseDay (d ++ (c :: r)) = none := by
  rcases hd with ⟨a, rfl, ha, hcd⟩ | ⟨a, b, rfl, ha, hb⟩
  · show parseDay (a :: c :: r) = none
    simp only [parseDay, ha, hcd, Bool.and_false, Bool.false_eq_true]
    rw [if_false, orElse_none_left, if_true, matchRest_cons_none hc]
    rfl
  · show parseDay (a :: b :: c :: r) = none
    simp only [parseDay, ha, hb, Bool.and_self]
    rw [if_true, matchRest_cons_none hc, if_true,
      matchRest_cons_none (digit_not_space hb)]
    rfl

theorem parseMonthDay_eq {m s₂ d r : List Char}
    (hm : (∃ a, m = [a] ∧ a.isDigit = true) ∨
          (∃ a b, m = [a, b] ∧ a.isDigit = true ∧ b.isDigit = true))
    (hs₂ne : s₂ ≠ []) (hs₂ : ∀ x ∈ s₂, isDateSep x = true)
    (hd : (∃ a, d = [a] ∧ a.isDigit = true) ∨
          (∃ a b, d = [a, b] ∧ a.isDigit = true ∧ b.isDigit = true))
    (hr : r = [] ∨ ∃ c t, r = c :: t ∧ isPySpace c = true) :
    parseMonthDay (m ++ s₂ ++ (d ++ r)) = some (m, d, restGroup r) := by
  obtain ⟨q₂, qs₂, rfl⟩ := List.exists_cons_of_ne_nil hs₂ne
  have hq₂ : isDateSep q₂ = true := hs₂ q₂ (List.mem_cons_self _ _)
  have hqs₂ : ∀ x ∈ qs₂, isDateSep x = true := fun x hx => hs₂ x (List.mem_cons_of_mem _ hx)
  have hdhead : ∃ b t, d ++ r = b :: t ∧ isDateSep b = false := by
    rcases hd with ⟨a, rfl, ha⟩ | ⟨a, b, rfl, ha, _⟩
    · exact ⟨a, r, rfl, digit_not_sep ha⟩
    · exact ⟨a, [b] ++ r, rfl, digit_not_sep ha⟩
  obtain ⟨b, t, hbt, hbsep⟩ := hdhead
  have hsep : parseSepPlus (q₂ :: (qs₂ ++ (d ++ r))) = some (d ++ r) :=
    parseSepPlus_append hq₂ hqs₂ hbt hbsep
  rcases hm with ⟨a, rfl, ha⟩ | ⟨a, a', rfl, ha, ha'⟩
  · show parseMonthDay (a :: q₂ :: (qs₂ ++ (d ++ r))) = some ([a], d, restGroup r)
    have hq₂d : q₂.isDigit = false := sep_not_digit hq₂
    simp only [parseMonthDay, ha, hq₂d, Bool.and_false, Bool.false_eq_true]
    rw [if_false, orElse_none_left, if_true, hsep]
    show (parseDay (d ++ r)).map (fun p => ([a], p.1, p.2)) = some ([a], d, restGroup r)
    rw [parseDay_eq hd hr]
    rfl
  · show parseMonthDay (a :: a' :: q₂ :: (qs₂ ++ (d ++ r))) = some ([a, a'], d, restGroup r)
    simp only [parseMonthDay, ha, ha', Bool.and_self]
    rw [if_true, hsep]
    have hstep : Option.bind (some (d ++ r))
        (fun t₂ => (parseDay t₂).map fun p => ([a, a'], p.1, p.2))
        = some ([a, a'], d, restGroup r) := by
      show (parseDay (d ++ r)).map (fun p => ([a, a'], p.1, p.2)) = some ([a, a'], d, restGroup r)
      rw [parseDay_eq hd hr]
      rfl
    rw [hstep]
    rfl

theorem parseMonthDay_none {m s₂ d : List Char} {c : Char} {r : List Char}
    (hm : (∃ a, m = [a] ∧ a.isDigit = true) ∨
          (∃ a b, m = [a, b] ∧ a.isDigit = true ∧ b.isDigit = true))
    (hs₂ne : s₂ ≠ []) (hs₂ : ∀ x ∈ s₂, isDateSep x = true)
    (hd : (∃ a, d = [a] ∧ a.isDigit = true ∧ c.isDigit = false) ∨
          (∃ a b, d = [a, b] ∧ a.isDigit = true ∧ b.isDigit = true))
    (hc : isPySpace c = false) :
    parseMonthDay (m ++ s₂ ++ (d ++ (c :: r))) = none := by
  obtain ⟨q₂, qs₂, rfl⟩ := List.exists_cons_of_ne_nil hs₂ne
  have hq₂ : isDateSep q₂ = true := hs₂ q₂ (List.mem_cons_self _ _)
  have hqs₂ : ∀ x ∈ qs₂, isDateSep x = true := fun x hx => hs₂ x (List.mem_cons_of_mem _ hx)
  have hdhead : ∃ b t, d ++ (c :: r) = b :: t ∧ isDateSep b = false := by
    rcases hd with ⟨a, rfl, ha, _⟩ | ⟨a, b, rfl, ha, _⟩
    · exact ⟨a, c :: r, rfl, digit_not_sep ha⟩
    · exact ⟨a, [b] ++ (c :: r), rfl, digit_not_sep ha⟩
  obtain ⟨b, t, hbt, hbsep⟩ := hdhead
  have hsep : parseSepPlus (q₂ :: (qs₂ ++ (d ++ (c :: r)))) = some (d ++ (c :: r)) :=
    parseSepPlus_append hq₂ hqs₂ hbt hbsep
  have hdaystep : ∀ (g : List Char × List Char → List Char × List Char × List Char),
      Option.bind (some (d ++ (c :: r))) (fun t₂ => (parseDay t₂).map g) = none := by
    intro g
    show (parseDay (d ++ (c :: r))).map g = none
    rw [parseDay_none hd hc]
    rfl
  rcases hm with ⟨a, rfl, ha⟩ | ⟨a, a', rfl, ha, ha'⟩
  · show parseMonthDay (a :: q₂ :: (qs₂ ++ (d ++ (c :: r)))) = none
    have hq₂d : q₂.isDigit = false := sep_not_digit hq₂
    simp only [parseMonthDay, ha, hq₂d, Bool.and_false, Bool.false_eq_true]
    rw [if_false, orElse_none_left, if_true, hsep, hdaystep]
  · show parseMonthDay (a :: a' :: q₂ :: (qs₂ ++ (d ++ (c :: r)))) = none
    have hsep2 : parseSepPlus (a' :: q₂ :: (qs₂ ++ (d ++ (c :: r)))) = none :=
      parseSepPlus_cons_none (digit_not_sep ha')
    simp only [parseMonthDay, ha, ha', Bool.and_self]
    rw [if_true, hsep, hdaystep, if_true, hsep2]
    rfl

theorem dropWhile_decomp {w : List Char} {y₁ : Char} {rest : List Char}
    (hw : ∀ x ∈ w, isPySpace x = true) (hy₁ : y₁.isDigit = true) :
    (w ++ (y₁ :: rest)).dropWhile isPySpace = y₁ :: rest := by
  rw [dropWhile_append_of_all hw, dropWhile_cons_neg (digit_not_space hy₁)]

theorem parseYear_cons {y₁ y₂ y₃ y₄ : Char} {rest : List Char}
    (hy₁ : y₁.isDigit = true) (hy₂ : y₂.isDigit = true)
    (hy₃ : y₃.isDigit = true) (hy₄ : y₄.isDigit = true) :
    parseYear (y₁ :: y₂ :: y₃ :: y₄ :: rest) = some ([y₁, y₂, y₃, y₄], rest) := by
  simp only [parseYear, hy₁, hy₂, hy₃, hy₄, Bool.and_self]
  rw [if_true]

theorem parseLeadingDate_decomp {w : List Char} {y₁ y₂ y₃ y₄ : Char}
    {s₁ m s₂ d r : List Char}
    (hw : ∀ x ∈ w, isPySpace x = true)
    (hy₁ : y₁.isDigit = true) (hy₂ : y₂.isDigit = true)
    (hy₃ : y₃.isDigit = true) (hy₄ : y₄.isDigit = true)
    (hs₁ne : s₁ ≠ []) (hs₁ : ∀ x ∈ s₁, isDateSep x = true)
    (hm : (∃ a, m = [a] ∧ a.isDigit = true) ∨
          (∃ a b, m = [a, b] ∧ a.isDigit = true ∧ b.isDigit = true))
    (hs₂ne : s₂ ≠ []) (hs₂ : ∀ x ∈ s₂, isDateSep x = true)
    (hd : (∃ a, d = [a] ∧ a.isDigit = true) ∨
          (∃ a b, d = [a, b] ∧ a.isDigit = true ∧ b.isDigit = true))
    (hr : r = [] ∨ ∃ c t, r = c :: t ∧ isPySpace c = true) :
    parseLeadingDate ⟨w ++ [y₁, y₂, y₃, y₄] ++ s₁ ++ m ++ s₂ ++ d ++ r⟩
      = some ([y₁, y₂, y₃, y₄], m, d, restGroup r) := by
  obtain ⟨q₁, qs₁, rfl⟩ := List.exists_cons_of_ne_nil hs₁ne
  have hq₁ : isDateSep q₁ = true := hs₁ q₁ (List.mem_cons_self _ _)
  have hqs₁ : ∀ x ∈ qs₁, isDateSep x = true := fun x hx => hs₁ x (List.mem_cons_of_mem _ hx)
  have hmhead : ∃ b t, m ++ (s₂ ++ (d ++ r)) = b :: t ∧ isDateSep b = false := by
    rcases hm with ⟨a, rfl, ha⟩ | ⟨a, b, rfl, ha, _⟩
    · exact ⟨a, s₂ ++ (d ++ r), rfl, digit_not_sep ha⟩
    · exact ⟨a, [b] ++ (s₂ ++ (d ++ r)), rfl, digit_not_sep ha⟩
  obtain ⟨b, t, hbt, hbsep⟩ := hmhead
  have hdata : w ++ [y₁, y₂, y₃, y₄] ++ (q₁ :: qs₁) ++ m ++ s₂ ++ d ++ r
      = w ++ (y₁ :: y₂ :: y₃ :: y₄ :: (q₁ :: qs₁ ++ (m ++ (s₂ ++ (d ++ r))))) := by
    simp [List.append_assoc]
  simp only [parseLeadingDate, hdata, dropWhile_decomp hw hy₁,
    parseYear_cons hy₁ hy₂ hy₃ hy₄]
  show Option.bind (parseSepPlus (q₁ :: qs₁ ++ (m ++ (s₂ ++ (d ++ r)))))
      (fun t₂ => (parseMonthDay t₂).map fun p => ([y₁, y₂, y₃, y₄], p.1, p.2.1, p.2.2))
      = some ([y₁, y₂, y₃, y₄], m, d, restGroup r)
  rw [parseSepPlus_append hq₁ hqs₁ hbt hbsep]
  show (parseMonthDay (m ++ (s₂ ++ (d ++ r)))).map
      (fun p => ([y₁, y₂, y₃, y₄], p.1, p.2.1, p.2.2))
      = some ([y₁, y₂, y₃, y₄], m, d, restGroup r)
  rw [show m ++ (s₂ ++ (d ++ r)) = m ++ s₂ ++ (d ++ r) from (List.append_assoc m s₂ (d ++ r)).symm,
    parseMonthDay_eq hm hs₂ne hs₂ hd hr]
  rfl

theorem parseLeadingDate_decomp_none {w : List Char} {y₁ y₂ y₃ y₄ : Char}
    {s₁ m s₂ d : List Char} {c : Char} {r : List Char}
    (hw : ∀ x ∈ w, isPySpace x = true)
    (hy₁ : y₁.isDigit = true) (hy₂ : y₂.isDigit = true)
    (hy₃ : y₃.isDigit = true) (hy₄ : y₄.isDigit = true)
    (hs₁ne : s₁ ≠ []) (hs₁ : ∀ x ∈ s₁, isDateSep x = true)
    (hm : (∃ a, m = [a] ∧ a.isDigit = true) ∨
          (∃ a b, m = [a, b] ∧ a.isDigit = true ∧ b.isDigit = true))
    (hs₂ne : s₂ ≠ []) (hs₂ : ∀ x ∈ s₂, isDateSep x = true)
    (hd : (∃ a, d = [a] ∧ a.isDigit = true ∧ c.isDigit = false) ∨
          (∃ a b, d = [a, b] ∧ a.isDigit = true ∧ b.isDigit = true))
    (hc : isPySpace c = false) :
    parseLeadingDate ⟨w ++ [y₁, y₂, y₃, y₄] ++ s₁ ++ m ++ s₂ ++ d ++ (c :: r)⟩ = none := by
  obtain ⟨q₁, qs₁, rfl⟩ := List.exists_cons_of_ne_nil hs₁ne
  have hq₁ : isDateSep q₁ = true := hs₁ q₁ (List.mem_cons_self _ _)
  have hqs₁ : ∀ x ∈ qs₁, isDateSep x = true := fun x hx => hs₁ x (List.mem_cons_of_mem _ hx)
  have hmhead : ∃ b t, m ++ (s₂ ++ (d ++ (c :: r))) = b :: t ∧ isDateSep b = false := by
    rcases hm with ⟨a, rfl, ha⟩ | ⟨a, b, rfl, ha, _⟩
    · exact ⟨a, s₂ ++ (d ++ (c :: r)), rfl, digit_not_sep ha⟩
    · exact ⟨a, [b] ++ (s₂ ++ (d ++ (c :: r))), rfl, digit_not_sep ha⟩
  obtain ⟨b, t, hbt, hbsep⟩ := hmhead
  have hdata : w ++ [y₁, y₂, y₃, y₄] ++ (q₁ :: qs₁) ++ m ++ s₂ ++ d ++ (c :: r)
      = w ++ (y₁ :: y₂ :: y₃ :: y₄ :: (q₁ :: qs₁ ++ (m ++ (s₂ ++ (d ++ (c :: r)))))) := by
    simp [List.append_assoc]
  simp only [parseLeadingDate, hdata, dropWhile_decomp hw hy₁,
    parseYear_cons hy₁ hy₂ hy₃ hy₄]
  show Option.bind (parseSepPlus (q₁ :: qs₁ ++ (m ++ (s₂ ++ (d ++ (c :: r))))))
      (fun t₂ => (parseMonthDay t₂).map fun p => ([y₁, y₂, y₃, y₄], p.1, p.2.1, p.2.2))
      = none
  rw [parseSepPlus_append hq₁ hqs₁ hbt hbsep]
  show (parseMonthDay (m ++ (s₂ ++ (d ++ (c :: r))))).map
      (fun p => ([y₁, y₂, y₃, y₄], p.1, p.2.1, p.2.2))
      = none
  rw [show m ++ (s₂ ++ (d ++ (c :: r))) = m ++ s₂ ++ (d ++ (c :: r))
      from (List.append_assoc m s₂ (d ++ (c :: r))).symm,
    parseMonthDay_none hm hs₂ne hs₂ hd hc]
  rfl

/-! ### Inversion of the date-normalization match (for the gate invariant) -/

theorem orElse_eq_some {α : Type} {x y : Option α} {v : α} (h : (x <|> y) = some v) :
    x = some v ∨ (x = none ∧ y = some v) := by
  cases x with
  | none => exact Or.inr ⟨rfl, by rwa [orElse_none_left] at h⟩
  | some a => exact Or.inl (by rwa [orElse_some_left] at h)

theorem parseYear_inv {cs y t : List Char} (h : parseYear cs = some (y, t)) :
    cs = y ++ t ∧ ∃ a b c e, y = [a, b, c, e] ∧ a.isDigit = true := by
  rcases cs with _ | ⟨a, _ | ⟨b, _ | ⟨c, _ | ⟨e, rest⟩⟩⟩⟩
  · exact Option.noConfusion h
  · exact Option.noConfusion h
  · exact Option.noConfusion h
  · exact Option.noConfusion h
  simp only [parseYear] at h
  split at h
  · injection h with h'
    injection h' with h₁ h₂
    subst h₁
    subst h₂
    refine ⟨rfl, a, b, c, e, rfl, ?_⟩
    rename_i hcond
    simp only [Bool.and_eq_true] at hcond
    exact hcond.1.1.1
  · cases h

theorem parseSepPlus_inv {cs t : List Char} (h : parseSepPlus cs = some t) :
    ∃ s₁, s₁ ≠ [] ∧ cs = s₁ ++ t := by
  cases cs with
  | nil => cases h
  | cons q rest =>
    simp only [parseSepPlus] at h
    split at h
    · injection h with h'
      exact ⟨q :: rest.takeWhile isDateSep, List.cons_ne_nil _ _, by
        rw [List.cons_append, ← h', List.takeWhile_append_dropWhile]⟩
    · cases h

theorem matchRest_inv {cs r : List Char} (h : matchRest cs = some r) :
    (cs = [] ∧ r = []) ∨
    ∃ c t, cs = c :: t ∧ isPySpace c = true ∧ r = c :: t.takeWhile (fun x => x != '\n') := by
  cases cs with
  | nil =>
    injection h with h'
    exact Or.inl ⟨rfl, h'.symm⟩
  | cons c t =>
    simp only [matchRest] at h
    split at h
    · injection h with h'
      rename_i hcond
      exact Or.inr ⟨c, t, rfl, hcond, h'.symm⟩
    · cases h

theorem parseDay_inv {cs d r : List Char} (h : parseDay cs = some (d, r)) :
    ∃ tail, cs = d ++ tail ∧ matchRest tail = some r ∧
      d ≠ [] ∧ ∀ x ∈ d, x.isDigit = true := by
  rcases orElse_eq_some h with h₂ | ⟨_, h₂⟩
  · rcases cs with _ | ⟨a, _ | ⟨b, t⟩⟩
    · exact Option.noConfusion h₂
    · exact Option.noConfusion h₂
    simp only at h₂
    split at h₂
    · rw [Option.map_eq_some'] at h₂
      obtain ⟨r', hr', heq⟩ := h₂
      injection heq with e₁ e₂
      subst e₁
      subst e₂
      rename_i hcond
      simp only [Bool.and_eq_true] at hcond
      refine ⟨t, rfl, hr', List.cons_ne_nil _ _, ?_⟩
      intro x hx
      rcases List.mem_cons.mp hx with rfl | hx'
      · exact hcond.1
      · rw [List.mem_singleton.mp hx']
        exact hcond.2
    · cases h₂
  · rcases cs with _ | ⟨a, t⟩
    · exact Option.noConfusion h₂
    simp only at h₂
    split at h₂
    · rw [Option.map_eq_some'] at h₂
      obtain ⟨r', hr', heq⟩ := h₂
      injection heq with e₁ e₂
      subst e₁
      subst e₂
      rename_i hcond
      refine ⟨t, rfl, hr', List.cons_ne_nil _ _, ?_⟩
      intro x hx
      rw [List.mem_singleton.mp hx]
      exact hcond
    · cases h₂

theorem parseMonthDay_inv {cs m d r : List Char} (h : parseMonthDay cs = some (m, d, r)) :
    ∃ s₂ tail, cs = m ++ (s₂ ++ (d ++ tail)) ∧ matchRest tail = some r ∧
      d ≠ [] ∧ ∀ x ∈ d, x.isDigit = true := by
  rcases orElse_eq_some h with h₂ | ⟨_, h₂⟩
  · rcases cs with _ | ⟨a, _ | ⟨b, t⟩⟩
    · exact Option.noConfusion h₂
    · exact Option.noConfusion h₂
    simp only at h₂
    split at h₂
    · rw [Option.bind_eq_some] at h₂
      obtain ⟨t₂, ht₂, hmap⟩ := h₂
      rw [Option.map_eq_some'] at hmap
      obtain ⟨⟨dd, rr⟩, hday, heq⟩ := hmap
      injection heq with e₁ e₂
      injection e₂ with e₂ e₃
      subst e₁
      subst e₂
      subst e₃
      obtain ⟨s₂, _, hsplit⟩ := parseSepPlus_inv ht₂
      obtain ⟨tail, hday2, hrest, hdne, hddig⟩ := parseDay_inv hday
      exact ⟨s₂, tail, by rw [hsplit, hday2]; rfl, hrest, hdne, hddig⟩
    · cases h₂
  · rcases cs with _ | ⟨a, t⟩
    · exact Option.noConfusion h₂
    simp only at h₂
    split at h₂
    · rw [Option.bind_eq_some] at h₂
      obtain ⟨t₂, ht₂, hmap⟩ := h₂
      rw [Option.map_eq_some'] at hmap
      obtain ⟨⟨dd, rr⟩, hday, heq⟩ := hmap
      injection heq with e₁ e₂
      injection e₂ with e₂ e₃
      subst e₁
      subst e₂
      subst e₃
      obtain ⟨s₂, _, hsplit⟩ := parseSepPlus_inv ht₂
      obtain ⟨tail, hday2, hrest, hdne, hddig⟩ := parseDay_inv hday
      exact ⟨s₂, tail, by rw [hsplit, hday2]; rfl, hrest, hdne, hddig⟩
    · cases h₂

theorem parseLeadingDate_inv {s : String} {y m d r : List Char}
    (h : parseLeadingDate s = some (y, m, d, r)) :
    ∃ w s₁ s₂ tail,
      s.data = w ++ (y ++ (s₁ ++ (m ++ (s₂ ++ (d ++ tail))))) ∧
      (∀ x ∈ w, isPySpace x = true) ∧
      (∃ a b c e, y = [a, b, c, e] ∧ a.isDigit = true) ∧
      (d ≠ [] ∧ ∀ x ∈ d, x.isDigit = true) ∧
      matchRest tail = some r := by
  simp only [parseLeadingDate] at h
  rw [Option.bind_eq_some] at h
  obtain ⟨⟨yc, rest₁⟩, hY, h⟩ := h
  rw [Option.bind_eq_some] at h
  obtain ⟨rest₂, hS, h⟩ := h
  rw [Option.map_eq_some'] at h
  obtain ⟨⟨mm, dd, rr⟩, hMD, heq⟩ := h
  injection heq with e₁ e₂
  injection e₂ with e₂ e₃
  injection e₃ with e₃ e₄
  subst e₁
  subst e₂
  subst e₃
  subst e₄
  obtain ⟨hsplitY, hyshape⟩ := parseYear_inv hY
  obtain ⟨s₁, _, hsplitS⟩ := parseSepPlus_inv hS
  have hsplitS' : rest₁ = s₁ ++ rest₂ := hsplitS
  obtain ⟨s₂, tail, hsplitMD, hrest, hdne, hddig⟩ := parseMonthDay_inv hMD
  refine ⟨s.data.takeWhile isPySpace, s₁, s₂, tail, ?_, ?_, hyshape, ⟨hdne, hddig⟩, hrest⟩
  · conv_lhs => rw [← List.takeWhile_append_dropWhile (p := isPySpace) (l := s.data)]
    rw [hsplitY, hsplitS', hsplitMD]
  · exact fun x hx => List.mem_takeWhile_imp hx

/-! ### Fixed points of `strip` -/

theorem stripList_head_not_ws {a : Char} {t : List Char}
    (h : stripList (a :: t) = a :: t) : isPySpace a = false := by
  by_contra h'
  have hws : isPySpace a = true := by
    cases hb : isPySpace a
    · exact absurd hb h'
    · rfl
  have heq : stripList (a :: t) = stripList t := by
    unfold stripList
    rw [List.dropWhile_cons_of_pos hws]
  have hlen : (stripList t).length ≤ t.length := by
    unfold stripList
    rw [List.length_reverse]
    calc ((t.dropWhile isPySpace).reverse.dropWhile isPySpace).length
        ≤ (t.dropWhile isPySpace).reverse.length := (List.dropWhile_sublist _).length_le
      _ = (t.dropWhile isPySpace).length := List.length_reverse _
      _ ≤ t.length := (List.dropWhile_sublist _).length_le
  rw [heq] at h
  have := congrArg List.length h
  simp only [List.length_cons] at this
  omega

theorem stripList_last_not_ws {l : List Char} {a : Char}
    (h : stripList (l ++ [a]) = l ++ [a]) : isPySpace a = false := by
  by_contra h'
  have hws : isPySpace a = true := by
    cases hb : isPySpace a
    · exact absurd hb h'
    · rfl
  rcases hu : (l ++ [a]).dropWhile isPySpace with _ | ⟨u₀, urest⟩
  · unfold stripList at h
    rw [hu] at h
    simp only [List.reverse_nil, List.dropWhile_nil] at h
    exact absurd h.symm (List.append_ne_nil_of_right_ne_nil l (List.cons_ne_nil a []))
  · have hlast : ((l ++ [a]).dropWhile isPySpace).getLast? = some a := by
      rw [getLast?_dropWhile_of_ne_nil (by rw [hu]; exact List.cons_ne_nil _ _),
        List.getLast?_concat]
    rcases List.eq_nil_or_concat ((l ++ [a]).dropWhile isPySpace) with hnil | ⟨L, b, hLb⟩
    · rw [hnil] at hu; cases hu
    · rw [List.concat_eq_append] at hLb
      have hb : b = a := by
        rw [hLb, List.getLast?_concat] at hlast
        injection hlast
      rw [hb] at hLb
      have hstr : stripList (l ++ [a]) = (List.dropWhile isPySpace L.reverse).reverse := by
        unfold stripList
        rw [hLb, List.reverse_append, List.reverse_singleton, List.singleton_append,
          List.dropWhile_cons_of_pos hws]
      have hlen1 : (stripList (l ++ [a])).length ≤ L.length := by
        rw [hstr, List.length_reverse]
        calc (List.dropWhile isPySpace L.reverse).length
            ≤ L.reverse.length := (List.dropWhile_sublist _).length_le
          _ = L.length := List.length_reverse _
      have hlen2 : L.length + 1 ≤ (l ++ [a]).length := by
        have hle : ((l ++ [a]).dropWhile isPySpace).length ≤ (l ++ [a]).length :=
          (List.dropWhile_sublist _).length_le
        rw [hLb] at hle
        simpa using hle
      rw [h] at hlen1
      omega

theorem normalize_of_parse_none {s : String} (h : parseLeadingDate s = none) :
    normalize_leading_date_in_title s = s := by
  unfold normalize_leading_date_in_title
  rw [h]
  by_cases hs : s.data.isEmpty = true
  · rw [if_pos hs]
    obtain ⟨data⟩ := s
    have hdat : data = [] := List.isEmpty_iff.mp hs
    subst hdat
    rfl
  · rw [if_neg hs]

theorem normalize_of_parse_some {s : String} {y m d r : List Char}
    (h : parseLeadingDate s = some (y, m, d, r)) (hne : s.data.isEmpty ≠ true) :
    normalize_leading_date_in_title s = ⟨y ++ zfill 2 m ++ zfill 2 d ++ r⟩ := by
  unfold normalize_leading_date_in_title
  rw [h, if_neg hne]

theorem noEdgeWs_of {cs : List Char} {x z : Char}
    (hhead : cs.head? = some x) (hx : isPySpace x = false)
    (hlast : cs.getLast? = some z) (hz : isPySpace z = false) :
    noEdgeWs cs = true := by
  unfold noEdgeWs
  rw [hhead, hlast]
  simp [hx, hz]

theorem zfill_two_ne_nil {d : List Char} (hdne : d ≠ []) : zfill 2 d ≠ [] := by
  unfold zfill
  exact List.append_ne_nil_of_right_ne_nil _ hdne

theorem zfill_two_getLast {d : List Char} (hdne : d ≠ []) :
    (zfill 2 d).getLast? = d.getLast? := by
  unfold zfill
  exact List.getLast?_append_of_ne_nil _ hdne

theorem pyStrip_fix_iff {s : String} : pyStrip s = s ↔ stripList s.data = s.data := by
  constructor
  · intro h
    exact congrArg String.data h
  · intro h
    show (⟨stripList s.data⟩ : String) = s
    rw [h]

theorem normalize_ne_empty {s : String} (h : s ≠ "") :
    normalize_leading_date_in_title s ≠ "" := by
  have hs : s.data.isEmpty ≠ true := by
    intro hc
    apply h
    obtain ⟨da⟩ := s
    have hda : da = [] := List.isEmpty_iff.mp hc
    subst hda
    rfl
  cases hp : parseLeadingDate s with
  | none =>
    rw [normalize_of_parse_none hp]
    exact h
  | some v =>
    obtain ⟨y, m, d, r⟩ := v
    rw [normalize_of_parse_some hp hs]
    obtain ⟨w, s₁, s₂, tail, _, _, ⟨a, b, c, e, hy, _⟩, _, _⟩ := parseLeadingDate_inv hp
    intro hc
    have hdat := congrArg String.data hc
    rw [hy] at hdat
    simp at hdat

/-- The shape of the normalized string: on a stripped, newline-free input,
the output of `normalize_leading_date_in_title` is itself stripped. -/
theorem normalize_stripped {s : String} (hstrip : stripList s.data = s.data)
    (hnl : '\n' ∉ s.data) :
    stripList (normalize_leading_date_in_title s).data
      = (normalize_leading_date_in_title s).data := by
  by_cases hs : s.data.isEmpty = true
  · have h1 : normalize_leading_date_in_title s = "" := by
      unfold normalize_leading_date_in_title
      rw [if_pos hs]
    rw [h1]
    rfl
  · cases hp : parseLeadingDate s with
    | none =>
      rw [normalize_of_parse_none hp]
      exact hstrip
    | some v =>
      obtain ⟨y, m, d, r⟩ := v
      rw [normalize_of_parse_some hp hs]
      show stripList (y ++ zfill 2 m ++ zfill 2 d ++ r) = y ++ zfill 2 m ++ zfill 2 d ++ r
      obtain ⟨w, s₁, s₂, tail, hdecomp, hw, ⟨a, b, c, e, hy, ha⟩, ⟨hdne, hddig⟩, hmr⟩ :=
        parseLeadingDate_inv hp
      have hwnil : w = [] := by
        cases w with
        | nil => rfl
        | cons w₀ wt =>
          have hcons : s.data = w₀ :: (wt ++ (y ++ (s₁ ++ (m ++ (s₂ ++ (d ++ tail)))))) := by
            rw [hdecomp]
            rfl
          have hfix := hstrip
          rw [hcons] at hfix
          have hnws := stripList_head_not_ws hfix
          have hw₀ : isPySpace w₀ = true := hw w₀ (List.mem_cons_self _ _)
          rw [hw₀] at hnws
          cases hnws
      subst hwnil
      rw [List.nil_append] at hdecomp
      rcases matchRest_inv hmr with ⟨htail, hrnil⟩ | ⟨c₀, t₀, htail, hc₀, hr⟩
      · subst htail
        subst hrnil
        obtain ⟨L, z, hdz⟩ := (List.eq_nil_or_concat d).resolve_left hdne
        rw [List.concat_eq_append] at hdz
        have hzdig : z.isDigit = true := hddig z (by rw [hdz]; simp)
        apply stripList_eq_self
        apply noEdgeWs_of (x := a) (z := z)
        · rw [hy]
          rfl
        · exact digit_not_space ha
        · rw [List.append_nil, List.getLast?_append_of_ne_nil _ (zfill_two_ne_nil hdne),
            zfill_two_getLast hdne, hdz, List.getLast?_concat]
        · exact digit_not_space hzdig
      · rw [htail] at hdecomp
        have hsub : ∀ x ∈ t₀, x ∈ s.data := by
          intro x hx
          rw [hdecomp]
          simp only [List.mem_append, List.mem_cons]
          exact Or.inr (Or.inr (Or.inr (Or.inr (Or.inr (Or.inr hx)))))
        have ht₀ : t₀.takeWhile (fun x => x != '\n') = t₀ := by
          apply takeWhile_eq_self_of_all
          intro x hx
          have hne' : x ≠ '\n' := fun hc => hnl (hc ▸ hsub x hx)
          simpa using hne'
        rw [hr, ht₀]
        have hflat : s.data = (y ++ s₁ ++ m ++ s₂ ++ d) ++ (c₀ :: t₀) := by
          rw [hdecomp]
          simp [List.append_assoc]
        obtain ⟨L₂, z, hL₂⟩ := (List.eq_nil_or_concat (c₀ :: t₀)).resolve_left
          (List.cons_ne_nil c₀ t₀)
        rw [List.concat_eq_append] at hL₂
        have hzws : isPySpace z = false := by
          have hfix := hstrip
          rw [hflat, hL₂, ← List.append_assoc] at hfix
          exact stripList_last_not_ws hfix
        apply stripList_eq_self
        apply noEdgeWs_of (x := a) (z := z)
        · rw [hy]
          rfl
        · exact digit_not_space ha
        · rw [List.getLast?_append_of_ne_nil _ (List.cons_ne_nil c₀ t₀), hL₂,
            List.getLast?_concat]
        · exact hzws

/-! ## Claims -/

/-- **C2, counterexample.** The claim requires `isLocked` not to report
locked for a path that does not exist, but `is_file_locked` catches every
`OSError` — including the `FileNotFoundError` an absent path raises — so
an absent file is reported locked. -/
theorem c2_isLocked_counterexample :
    is_file_locked FileState.absent = true ∧
    openForRead FileState.absent = .error .fileNotFound := ⟨rfl, rfl⟩

/-- **C2, amended.** `is_file_locked(path)` reports the file as locked
exactly when the open attempt fails with any `OSError`, i.e. in every
modelled state other than `readable` — including absence
(`FileNotFoundError`) and permission errors. -/
theorem c2_isLocked_amended :
    ∀ fs : FileState,
      (is_file_locked fs = true ↔ fs ≠ FileState.readable) ∧
      (is_file_locked fs = false ↔ openForRead fs = .ok ()) := by
  intro fs
  cases fs <;> simp [is_file_locked, openForRead]

/-- **C6.** Cancelling (or closing) the title-confirmation dialog, or
choosing no file at the file-pick step, terminates the run with exit
status 0.  Dialog cancellation leaves nothing persisted and no pipeline
effect; file-pick cancellation executes no pipeline effect (no staging
copy, no encode, no distribution copy) — the only prior write is the title
file persisted by the already-completed gate acceptance. -/
theorem c6_cancellation_exits_zero :
    ∀ (pick : Option Unit) (debug cliSkip fm aOk vOk : Bool) (f : Files),
      runFull .noResult pick debug cliSkip fm aOk vOk f = ⟨0, none, [], none⟩ ∧
      runFull .cancelled pick debug cliSkip fm aOk vOk f = ⟨0, none, [], none⟩ ∧
      (∀ t a sA sV, runFull (.submitted t a sA sV) none debug cliSkip fm aOk vOk f
          = ⟨0, some (gateRecord t a), [], none⟩) :=
  fun _ _ _ _ _ _ _ => ⟨rfl, rfl, fun _ _ _ _ => rfl⟩

/-- **C1.** Re-running the pipeline tail when every target artifact exists
performs zero encoder invocations and zero copies and completes without a
crash, for every combination of flags and oracle outcomes; moreover every
encode and copy effect ever emitted is guarded by the existence check on
its own output path (its target did not exist at the start of the run). -/
theorem c1_rerun_with_all_artifacts_is_noop :
    (∀ debug skipA skipV fm aOk vOk,
      (runPipeline debug skipA skipV fm aOk vOk allArtifacts).effects.countP
          (fun e => e.isEncode || e.isCopy) = 0 ∧
      (runPipeline debug skipA skipV fm aOk vOk allArtifacts).crashed = none) ∧
    (∀ debug skipA skipV fm aOk vOk (f : Files),
      (runPipeline debug skipA skipV fm aOk vOk f).effects.all
        (fun e => match e.target with
          | some t => !f.get t
          | none => true) = true) := by
  constructor
  · decide
  · decide

/-- **C8.** With the debug flag set, the pipeline tail performs no copy at
all (no staging copy of the original, no dated-folder copy, no
flat-destination copy), whatever the skip flags and the oracle outcomes;
the work-area encodes still run, each exactly when its own skip flag is
off and its output is missing (stated with the encoder executable
present, since a missing executable crashes the first attempted encode). -/
theorem c8_debug_mode_skips_all_copies :
    ∀ (skipA skipV fm aOk vOk : Bool) (f : Files),
      (runPipeline true skipA skipV fm aOk vOk f).effects.all (fun e => !e.isCopy) = true ∧
      ((runPipeline true skipA skipV true aOk vOk f).effects.contains Effect.encodeAudio
          = (!skipA && !f.audioOut)) ∧
      ((runPipeline true skipA skipV true aOk vOk f).effects.contains Effect.encodeVideo
          = (!skipV && !f.videoOut)) := by
  decide

/-- **C5, counterexample.** On a fresh work area with the encoder present,
an audio encode that fails (leaving no output) does *not* leave the rest of
the run unharmed: the distribution stage's copy of the missing audio
output raises an uncaught `FileNotFoundError`, the run aborts, and the
compressed-video distribution copy never happens — refuting both "not
pipeline-fatal" and "an unrelated stage's failure never blocks later
independent stages". -/
theorem c5_encoder_failure_counterexample :
    (runPipeline false false false true false true noArtifacts).crashed = some .audioCopy ∧
    Effect.copy .videoOut .finalComp ∉
      (runPipeline false false false true false true noArtifacts).effects := by
  decide

/-- **C9.** `get_safe_filename` is idempotent: sanitizing an already
sanitized string changes nothing, for every input string. -/
theorem c9_sanitize_idempotent :
    ∀ s : String, get_safe_filename (get_safe_filename s) = get_safe_filename s := by
  intro s
  by_cases hs : s.data.isEmpty = true
  · have h1 : get_safe_filename s = "" := by rw [get_safe_filename, if_pos hs]
    rw [h1]
    decide
  · have h1 : get_safe_filename s = ⟨stripList (collapseWs (replaceInvalid s.data))⟩ := by
      rw [get_safe_filename, if_neg hs]
    rw [h1]
    generalize hw : collapseWs (replaceInvalid s.data) = w
    have hinv : ∀ c ∈ stripList w, isInvalidChar c = false := by
      intro c hc
      rcases mem_collapseWs (by rw [hw]; exact mem_stripList hc) with rfl | ⟨hm, _⟩
      · decide
      · exact mem_replaceInvalid hm
    have hws : ∀ c ∈ stripList w, isPySpace c = true → c = ' ' := by
      intro c hc hcs
      rcases mem_collapseWs (by rw [hw]; exact mem_stripList hc) with rfl | ⟨_, hfalse⟩
      · rfl
      · rw [hcs] at hfalse; cases hfalse
    have hsep : WsSeparated (stripList w) :=
      wsSeparated_stripList (by rw [← hw]; exact wsSeparated_collapseWs _)
    by_cases hzn : (stripList w).isEmpty = true
    · have h2 : (⟨stripList w⟩ : String) = "" := by rw [List.isEmpty_iff.mp hzn]
      rw [h2]
      decide
    · have h3 : get_safe_filename ⟨stripList w⟩
          = ⟨stripList (collapseWs (replaceInvalid (stripList w)))⟩ := by
        rw [get_safe_filename, if_neg hzn]
      rw [h3, replaceInvalid_eq_self hinv, collapseWs_eq_self hsep hws, stripList_idem]

/-- **C3.** The base-name derivation is a total case split: a title
beginning with a valid YYYY-MM-DD-like date token (accepted separators)
yields the sanitized title unchanged, with no date prefix; a title the
date regex does not match yields exactly the formatted run date, a space,
and the sanitized title. -/
theorem c3_deriveBaseName_total_case_split :
    ∀ (t : String) (today : Date),
      (startsWithSpecDateToken t → deriveBaseName t today = get_safe_filename t) ∧
      (title_starts_with_date t = false →
        deriveBaseName t today = formatYYYYMMDD today ++ " " ++ get_safe_filename t) := by
  intro t today
  refine ⟨fun h => ?_, fun h => ?_⟩
  · rw [deriveBaseName, if_pos (spec_token_matches h)]
  · rw [deriveBaseName, if_neg (by rw [h]; exact Bool.false_ne_true)]

/-- **C3, witness.** The case split at two concrete titles: a dated title
is left alone, an undated title gets the run date prefixed. -/
theorem c3_deriveBaseName_total_case_split_witness :
    deriveBaseName "2024-03-05 Talk" ⟨2025, 6, 1⟩ = get_safe_filename "2024-03-05 Talk" ∧
    deriveBaseName "Random Thoughts" ⟨2025, 6, 1⟩
      = formatYYYYMMDD ⟨2025, 6, 1⟩ ++ " " ++ get_safe_filename "Random Thoughts" := by
  constructor
  · exact (c3_deriveBaseName_total_case_split "2024-03-05 Talk" ⟨2025, 6, 1⟩).1
      ⟨'2', '0', '2', '4', '-', '0', '3', '-', '0', '5', " Talk".data, by decide⟩
  · exact (c3_deriveBaseName_total_case_split "Random Thoughts" ⟨2025, 6, 1⟩).2 (by decide)

/-- **C4, counterexample.** The claim promises the result is `YYYYMMDD`
immediately followed by *whatever* trailed the date, and unchanged input
when the pattern does not match at the start (which, as the claim states
it, begins with four digits).  Both fail: the trail group `(\s.*|$)` stops
at a newline, so `"2024-3-5 a\nb"` rebuilds to `"20240305 a"`, silently
dropping `"\nb"`; and leading whitespace is accepted and removed, so
`" 2024-3-5 Talk"` (which does not begin with a digit) is rewritten
rather than returned unchanged. -/
theorem c4_normalize_counterexample :
    normalize_leading_date_in_title "2024-3-5 a\nb" = "20240305 a" ∧
    normalize_leading_date_in_title "2024-3-5 a\nb" ≠ "20240305 a\nb" ∧
    normalize_leading_date_in_title " 2024-3-5 Talk" = "20240305 Talk" ∧
    normalize_leading_date_in_title " 2024-3-5 Talk" ≠ " 2024-3-5 Talk" := by
  decide

/-- **C4, amended.** If the text, after optional leading whitespace (which
is removed), starts with four digits, one-or-more separators, a
one-or-two-digit month, one-or-more separators, and a one-or-two-digit
day, followed by end of input or a whitespace character, the result is
`YYYYMMDD` (month and day zero-padded) followed by the captured trail:
that whitespace character plus the subsequent characters up to the next
newline — anything from that newline on is dropped.  If the pattern does
not match at the start, the input is returned unchanged. -/
theorem c4_normalize_leading_date_amended :
    (∀ (w : List Char) (y₁ y₂ y₃ y₄ : Char) (s₁ m s₂ d r : List Char),
      (∀ x ∈ w, isPySpace x = true) →
      y₁.isDigit = true → y₂.isDigit = true → y₃.isDigit = true → y₄.isDigit = true →
      s₁ ≠ [] → (∀ x ∈ s₁, isDateSep x = true) →
      ((∃ a, m = [a] ∧ a.isDigit = true) ∨
        (∃ a b, m = [a, b] ∧ a.isDigit = true ∧ b.isDigit = true)) →
      s₂ ≠ [] → (∀ x ∈ s₂, isDateSep x = true) →
      ((∃ a, d = [a] ∧ a.isDigit = true) ∨
        (∃ a b, d = [a, b] ∧ a.isDigit = true ∧ b.isDigit = true)) →
      (r = [] ∨ ∃ c t, r = c :: t ∧ isPySpace c = true) →
      normalize_leading_date_in_title ⟨w ++ [y₁, y₂, y₃, y₄] ++ s₁ ++ m ++ s₂ ++ d ++ r⟩
        = ⟨[y₁, y₂, y₃, y₄] ++ zfill 2 m ++ zfill 2 d ++ restGroup r⟩) ∧
    (∀ s : String, parseLeadingDate s = none → normalize_leading_date_in_title s = s) := by
  constructor
  · intro w y₁ y₂ y₃ y₄ s₁ m s₂ d r hw hy₁ hy₂ hy₃ hy₄ hs₁ne hs₁ hm hs₂ne hs₂ hd hr
    have hne : (String.mk (w ++ [y₁, y₂, y₃, y₄] ++ s₁ ++ m ++ s₂ ++ d ++ r)).data.isEmpty
        ≠ true := by
      simp [List.isEmpty_iff]
    exact normalize_of_parse_some
      (parseLeadingDate_decomp hw hy₁ hy₂ hy₃ hy₄ hs₁ne hs₁ hm hs₂ne hs₂ hd hr) hne
  · exact fun s h => normalize_of_parse_none h

/-- **C4, witness.** The amended match branch at `"2024-3-5 a\nb"` (the
trail is cut at the newline) and the no-match branch at `"no date"`. -/
theorem c4_normalize_leading_date_amended_witness :
    normalize_leading_date_in_title "2024-3-5 a\nb"
      = ⟨['2', '0', '2', '4'] ++ zfill 2 ['3'] ++ zfill 2 ['5']
          ++ restGroup (' ' :: "a\nb".data)⟩ ∧
    normalize_leading_date_in_title "no date" = "no date" := by
  constructor
  · have h := c4_normalize_leading_date_amended.1 [] '2' '0' '2' '4' ['-'] ['3'] ['-'] ['5']
      (' ' :: "a\nb".data)
      (forall_mem_nil _) (by decide) (by decide) (by decide) (by decide)
      (by decide) (forall_mem_singleton (by decide))
      (Or.inl ⟨'3', rfl, by decide⟩) (by decide) (forall_mem_singleton (by decide))
      (Or.inl ⟨'5', rfl, by decide⟩)
      (Or.inr ⟨' ', "a\nb".data, rfl, by decide⟩)
    rw [show ("2024-3-5 a\nb" : String)
        = ⟨[] ++ ['2', '0', '2', '4'] ++ ['-'] ++ ['3'] ++ ['-'] ++ ['5']
            ++ (' ' :: "a\nb".data)⟩ by decide]
    exact h
  · exact c4_normalize_leading_date_amended.2 "no date" (by decide)

/-- **C10.** If a title starts with a well-formed leading date token but
the character immediately after the day digits is neither whitespace nor
the end of the string, `normalize_leading_date_in_title` returns its input
completely unchanged (the one-digit-day case requires the follower not to
be a digit, so that the named digits really are the day digits). -/
theorem c10_nonspace_follower_unchanged :
    ∀ (w : List Char) (y₁ y₂ y₃ y₄ : Char) (s₁ m s₂ d : List Char) (c : Char) (r : List Char),
      (∀ x ∈ w, isPySpace x = true) →
      y₁.isDigit = true → y₂.isDigit = true → y₃.isDigit = true → y₄.isDigit = true →
      s₁ ≠ [] → (∀ x ∈ s₁, isDateSep x = true) →
      ((∃ a, m = [a] ∧ a.isDigit = true) ∨
        (∃ a b, m = [a, b] ∧ a.isDigit = true ∧ b.isDigit = true)) →
      s₂ ≠ [] → (∀ x ∈ s₂, isDateSep x = true) →
      ((∃ a, d = [a] ∧ a.isDigit = true ∧ c.isDigit = false) ∨
        (∃ a b, d = [a, b] ∧ a.isDigit = true ∧ b.isDigit = true)) →
      isPySpace c = false →
      normalize_leading_date_in_title ⟨w ++ [y₁, y₂, y₃, y₄] ++ s₁ ++ m ++ s₂ ++ d ++ (c :: r)⟩
        = ⟨w ++ [y₁, y₂, y₃, y₄] ++ s₁ ++ m ++ s₂ ++ d ++ (c :: r)⟩ := by
  intro w y₁ y₂ y₃ y₄ s₁ m s₂ d c r hw hy₁ hy₂ hy₃ hy₄ hs₁ne hs₁ hm hs₂ne hs₂ hd hc
  exact normalize_of_parse_none
    (parseLeadingDate_decomp_none hw hy₁ hy₂ hy₃ hy₄ hs₁ne hs₁ hm hs₂ne hs₂ hd hc)

/-- **C10, witness.** `"2024-3-5X"` is left unchanged: `'X'` is neither
whitespace nor the end of the input. -/
theorem c10_nonspace_follower_unchanged_witness :
    normalize_leading_date_in_title "2024-3-5X" = "2024-3-5X" := by
  have h := c10_nonspace_follower_unchanged [] '2' '0' '2' '4' ['-'] ['3'] ['-'] ['5'] 'X' []
    (forall_mem_nil _) (by decide) (by decide) (by decide) (by decide)
    (by decide) (forall_mem_singleton (by decide))
    (Or.inl ⟨'3', rfl, by decide⟩) (by decide) (forall_mem_singleton (by decide))
    (Or.inl ⟨'5', rfl, by decide, by decide⟩) (by decide)
  rw [show ("2024-3-5X" : String)
      = ⟨[] ++ ['2', '0', '2', '4'] ++ ['-'] ++ ['3'] ++ ['-'] ++ ['5'] ++ ('X' :: [])⟩
    by decide]
  exact h

/-- **C7, counterexample.** The gate accepts whatever the provider
submits: an empty title passes the gate as the empty string (refuting
non-emptiness), and a title with an embedded newline is persisted with a
trailing space after date-normalization (refuting whitespace-trimmedness). -/
theorem c7_title_record_counterexample :
    titleGate (GateDlg.submitted "" "Sheikh" false false) = some ("", "Sheikh") ∧
    titleGate (GateDlg.submitted "2024-3-5 a \nb" "Sheikh" false false)
      = some ("20240305 a ", "Sheikh") ∧
    pyStrip "20240305 a " ≠ "20240305 a " := by
  decide

/-- **C7, amended.** Once the gate passes, the persisted artist equals the
stripped provider artist (hence is whitespace-trimmed), and the persisted
title equals the date-normalization of the stripped provider title; the
title is whitespace-trimmed whenever the stripped title contains no
newline, and both fields are non-empty whenever the provider's values are
non-empty after stripping — the gate itself re-checks neither emptiness
nor the effect of normalization on embedded newlines. -/
theorem c7_title_record_amended :
    ∀ (t a : String) (sA sV : Bool) (rec : String × String),
      titleGate (.submitted t a sA sV) = some rec →
      pyStrip rec.2 = rec.2 ∧
      (pyStrip t ≠ "" → rec.1 ≠ "") ∧
      (pyStrip a ≠ "" → rec.2 ≠ "") ∧
      ('\n' ∉ (pyStrip t).data → pyStrip rec.1 = rec.1) := by
  intro t a sA sV rec h
  injection h with h'
  subst h'
  refine ⟨pyStrip_idem a, fun hne => normalize_ne_empty hne, fun hne => hne, fun hnl => ?_⟩
  exact pyStrip_fix_iff.mpr
    (normalize_stripped (pyStrip_fix_iff.mp (pyStrip_idem t)) hnl)

/-- **C7, witness.** The amended invariant at the provider result
`(" My Talk ", " X ")`: the persisted record is `("My Talk", "X")`, both
trimmed and non-empty. -/
theorem c7_title_record_amended_witness :
    pyStrip (gateRecord " My Talk " " X ").2 = (gateRecord " My Talk " " X ").2 ∧
    (gateRecord " My Talk " " X ").1 ≠ "" ∧
    (gateRecord " My Talk " " X ").2 ≠ "" ∧
    pyStrip (gateRecord " My Talk " " X ").1 = (gateRecord " My Talk " " X ").1 := by
  have h := c7_title_record_amended " My Talk " " X " false false
    (gateRecord " My Talk " " X ") rfl
  exact ⟨h.1, h.2.1 (by decide), h.2.2.1 (by decide), h.2.2.2 (by decide)⟩

/-- **C5, amended.** A non-zero encoder exit is not itself treated as an
error: after a failed audio encode the run still performs the video encode
and still enters the distribution stage (the audio destination copy is
attempted).  But the failure is not harmless there: copying the missing
audio output crashes the run before the compressed-video copy.  In the
other direction the claim's example does hold: a failed *video* encode
does not block audio distribution, because the audio copy precedes the
video copy — the run completes the audio copy and only then crashes.  A
transcoder missing from the environment is pipeline-fatal at the first
attempted encode. -/
theorem c5_encoder_failure_amended :
    ((runPipeline false false false true false true noArtifacts).effects
        = [.mkdirDaily, .copy .src .workOrig, .copy .src .finalOrig,
           .encodeAudio, .encodeVideo, .copy .audioOut .finalAudio] ∧
      (runPipeline false false false true false true noArtifacts).crashed = some .audioCopy) ∧
    ((runPipeline false false false true true false noArtifacts).effects
        = [.mkdirDaily, .copy .src .workOrig, .copy .src .finalOrig,
           .encodeAudio, .encodeVideo, .copy .audioOut .finalAudio, .copy .videoOut .finalComp] ∧
      (runPipeline false false false true true false noArtifacts).files.finalAudio = true ∧
      (runPipeline false false false true true false noArtifacts).crashed = some .videoCopy) ∧
    ((runPipeline false false false false true true noArtifacts).crashed
        = some .audioEncodeLaunch ∧
      Effect.encodeVideo ∉ (runPipeline false false false false true true noArtifacts).effects) := by
  decide

end VideosProcessor
